import Mathlib

/-!
Verification of the cbLIA tokenizer (`src/tokenizer.rs`).

The tokenizer is a hand-rolled DFA with one byte of lookahead, implemented
as `impl Iterator for TokenIterator` whose `next` method loops, consuming
one byte per iteration, with a local `mode : Mode` and buffer
`buf : Vec<u8>`.  We embed the loop body as a non-recursive transition
function `stepFn` (mode, buffer, consumed byte, peeked byte → action), and
drive it with two recursive drivers: `scan` over a plain byte list (a
source that never fails) and `scanE` over a list of read results, where a
read failure (`Err` item from `Bytes<File>`) is mapped to end-of-iteration
on `next` and to "no byte" on `peek`, exactly as in the source.
-/

/-- Lexical mode, from `enum Mode` in the source. -/
inductive Mode
  | None
  | Newline
  | Text
  | Number
deriving DecidableEq, Repr

/-- Tokens, from `pub enum Token` in the source.  `Text` carries raw bytes,
`Number` a signed 32-bit value (modelled as `Int`, with range enforced at
parse time). -/
inductive Token
  | Text (bytes : List Nat)
  | Number (value : Int)
  | LParen
  | RParen
  | Dollar
  | Hash
  | Equals
  | Comma
  | EOL
deriving DecidableEq, Repr

/-- The letter class of the `Mode::None` match arm: `_`, `A`-`Z`, `a`-`z`,
`0xC0`-`0xD6`, `0xD8`-`0xF6`, `0xF8`-`0xFF`. -/
def isLetter (c : Nat) : Bool :=
  decide (c = 95) || decide (65 ≤ c ∧ c ≤ 90) || decide (97 ≤ c ∧ c ≤ 122) ||
  decide (192 ≤ c ∧ c ≤ 214) || decide (216 ≤ c ∧ c ≤ 246) || decide (248 ≤ c ∧ c ≤ 255)

/-- ASCII digit `0`-`9`. -/
def isDigit (c : Nat) : Bool :=
  decide (48 ≤ c ∧ c ≤ 57)

/-- The identifier-continuation class used both when peeking from
`Mode::None`-letter and in the `Mode::Text` arm: the letter class plus
ASCII digits. -/
def isIdentCont (c : Nat) : Bool :=
  decide (c = 95) || isDigit c || decide (65 ≤ c ∧ c ≤ 90) || decide (97 ≤ c ∧ c ≤ 122) ||
  decide (192 ≤ c ∧ c ≤ 214) || decide (216 ≤ c ∧ c ≤ 246) || decide (248 ≤ c ∧ c ≤ 255)

/-- Base-10 value of a digit-byte run (left fold, as `parse` accumulates). -/
def digitsVal (l : List Nat) : Nat :=
  l.foldl (fun a c => a * 10 + (c - 48)) 0

/-- All bytes are ASCII digits. -/
def allDigits (l : List Nat) : Bool :=
  l.all isDigit

/-- Core of `str::parse::<i32>` on a sign-stripped body: nonempty, all
digits, and the resulting value must fit a signed 32-bit integer. -/
def parseCore (ds : List Nat) (neg : Bool) : Option Int :=
  if ds = [] then none
  else if allDigits ds then
    let v : Int := if neg then -(digitsVal ds : Int) else (digitsVal ds : Int)
    if -(2 ^ 31) ≤ v ∧ v ≤ 2 ^ 31 - 1 then some v else none
  else none

/-- `String::from_utf8_lossy(buf).parse::<i32>()` as used by
`emit_token_number!`: an optional `-` or `+` sign followed by a nonempty
digit run, in 32-bit signed range.  (The buffers the scanner builds are
ASCII, so `from_utf8_lossy` is the identity on them.) -/
def parseI32 (buf : List Nat) : Option Int :=
  match buf with
  | [] => none
  | c :: rest =>
    if c = 45 then parseCore rest true
    else if c = 43 then parseCore rest false
    else parseCore buf false

/-- One loop iteration's outcome: return a token, die (the source calls
a panicking macro here, aborting the scan), or continue looping with a new mode and
buffer. -/
inductive LoopAction
  | ret (t : Token)
  | die (msg : String)
  | go (m : Mode) (buf : List Nat)
deriving DecidableEq, Repr

/-- `emit_token_number!`: parse the buffer as `i32` and return a `Number`
token; `unwrap` of a parse failure aborts. -/
def emit_token_number (buf : List Nat) : LoopAction :=
  match parseI32 buf with
  | some v => .ret (.Number v)
  | none => .die "called `Result::unwrap()` on an `Err` value: ParseIntError"

/-- `emit_token_text!`: return a `Text` token holding the buffer. -/
def emit_token_text (buf : List Nat) : LoopAction :=
  .ret (.Text buf)

/-- Does the (already error-mapped) peeked byte satisfy `f`?  A missing
peek never continues a token. -/
def contO (f : Nat → Bool) : Option Nat → Bool
  | some p => f p
  | none => false

/-- The body of the `loop` in `TokenIterator::next`: dispatch on the
current mode and the byte just consumed, with one peeked byte.  Mirrors
the `match mode` expression of the source arm by arm, in source order. -/
def stepFn (m : Mode) (buf : List Nat) (b : Nat) (pk : Option Nat) : LoopAction :=
  match m with
  | .None =>
    if b = 13 then .go .Newline buf
    else if isLetter b then
      if contO isIdentCont pk then .go .Text [b] else emit_token_text [b]
    else if isDigit b then
      if contO isDigit pk then .go .Number [b] else emit_token_number [b]
    else if b = 45 then
      if contO isDigit pk then .go .Number [b]
      else .die "Minus encountered without number"
    else if b = 40 then .ret .LParen
    else if b = 41 then .ret .RParen
    else if b = 36 then .ret .Dollar
    else if b = 35 then .ret .Hash
    else if b = 61 then .ret .Equals
    else if b = 44 then .ret .Comma
    else if b = 32 then .go .None buf
    else .die "Invalid or unhandled byte encountered"
  | .Newline =>
    if b = 10 then .go .Newline buf
    else .die "CR without corresponding LF in input file"
  | .Text =>
    if contO isIdentCont pk then .go .Text (buf ++ [b])
    else emit_token_text (buf ++ [b])
  | .Number =>
    if contO isDigit pk then .go .Number (buf ++ [b])
    else emit_token_number (buf ++ [b])

/-- Result of one `next()` call on an error-free source: end of iteration
(`None`), a token together with the remaining bytes, or an abort. -/
inductive Step
  | eof
  | tok (t : Token) (rest : List Nat)
  | err (msg : String)
deriving DecidableEq, Repr

/-- The `loop` of `TokenIterator::next` over a plain byte list: exhaustion
returns `None`; otherwise consume one byte, peek the next, and act. -/
def scan : Mode → List Nat → List Nat → Step
  | _, _, [] => .eof
  | m, buf, b :: rest =>
    match stepFn m buf b rest.head? with
    | .ret t => .tok t rest
    | .die msg => .err msg
    | .go m2 buf2 => scan m2 buf2 rest

/-- One `next()` call from the entry state: `mode` and `buf` are local
variables re-initialised to `Mode::None` / empty at the top of `next`. -/
def nextTok (l : List Nat) : Step :=
  scan Mode.None [] l

/-- Result of one `next()` call on a fallible source. -/
inductive StepE
  | eof
  | tok (t : Token) (rest : List (Option Nat))
  | err (msg : String)
deriving DecidableEq, Repr

/-- The peek mapping of the source: `Some(&Err(_))` and `None` both become
"no byte available".  An item `Option.none` models a read failure
(`Err` from `Bytes<File>`), `some b` a successfully read byte. -/
def peekedE : List (Option Nat) → Option Nat
  | some v :: _ => some v
  | _ => none

/-- The `loop` of `TokenIterator::next` over a fallible source: both
exhaustion and a read failure on `next` end the iteration. -/
def scanE : Mode → List Nat → List (Option Nat) → StepE
  | _, _, [] => .eof
  | _, _, none :: _ => .eof
  | m, buf, some b :: rest =>
    match stepFn m buf b (peekedE rest) with
    | .ret t => .tok t rest
    | .die msg => .err msg
    | .go m2 buf2 => scanE m2 buf2 rest

/-- Embed an error-free step result into the fallible world. -/
def liftE : Step → StepE
  | .eof => .eof
  | .tok t r => .tok t (r.map some)
  | .err msg => .err msg

/-- Driving the whole file: repeated `next()` calls collecting tokens,
with fuel (one unit per call; each successful call consumes at least one
byte, so `length + 1` units always suffice). -/
def tokenizeF : Nat → List Nat → Except String (List Token)
  | 0, _ => .ok []
  | fuel + 1, l =>
    match nextTok l with
    | .eof => .ok []
    | .err msg => .error msg
    | .tok t r => (tokenizeF fuel r).map (fun ts => t :: ts)

/-- Collect all tokens of a byte list, or the message of the abort that
stopped the scan. -/
def tokenize (l : List Nat) : Except String (List Token) :=
  tokenizeF (l.length + 1) l

/-- A successful `next()` leaves strictly fewer bytes than it started with. -/
theorem scan_tok_length (l : List Nat) :
    ∀ m buf t r, scan m buf l = Step.tok t r → r.length < l.length := by
  induction l with
  | nil => intro m buf t r h; simp [scan] at h
  | cons b rest ih =>
    intro m buf t r h
    simp only [scan] at h
    split at h
    · cases h; simp
    · cases h
    · have := ih _ _ _ _ h
      simp only [List.length_cons]
      omega

/-- The bytes left over by a successful `next()` are a suffix of the input. -/
theorem scan_tok_suffix (l : List Nat) :
    ∀ m buf t r, scan m buf l = Step.tok t r → r <:+ l := by
  induction l with
  | nil => intro m buf t r h; simp [scan] at h
  | cons b rest ih =>
    intro m buf t r h
    simp only [scan] at h
    split at h
    · cases h; exact List.suffix_cons b rest
    · cases h
    · exact (ih _ _ _ _ h).trans (List.suffix_cons b rest)

/-- Any fuel above the input length yields the same token run. -/
theorem tokenizeF_congr :
    ∀ (f f2 : Nat) (l : List Nat), l.length < f → l.length < f2 →
      tokenizeF f l = tokenizeF f2 l := by
  intro f
  induction f with
  | zero => intro f2 l h _; exact absurd h (Nat.not_lt_zero _)
  | succ f ih =>
    intro f2 l h h2
    cases f2 with
    | zero => exact absurd h2 (Nat.not_lt_zero _)
    | succ f2 =>
      simp only [tokenizeF]
      cases hs : nextTok l with
      | eof => rfl
      | err msg => rfl
      | tok t r =>
        have hr : r.length < l.length := scan_tok_length l _ _ _ _ hs
        dsimp only
        rw [ih f2 r (by omega) (by omega)]

/-- Unfolding equation for `tokenize`: one `next()` call, then the rest. -/
theorem tokenize_eq (l : List Nat) :
    tokenize l =
      match nextTok l with
      | .eof => .ok []
      | .err msg => .error msg
      | .tok t r => (tokenize r).map (fun ts => t :: ts) := by
  show tokenizeF (l.length + 1) l = _
  simp only [tokenizeF]
  cases hs : nextTok l with
  | eof => rfl
  | err msg => rfl
  | tok t r =>
    have hr : r.length < l.length := scan_tok_length l _ _ _ _ hs
    show (tokenizeF l.length r).map _ = (tokenizeF (r.length + 1) r).map _
    rw [tokenizeF_congr l.length (r.length + 1) r (by omega) (by omega)]

/-- Running `Mode::Text` over a maximal run of continuation bytes appends
the whole run to the buffer and emits it at the first non-continuing
lookahead (or at end of input). -/
theorem scan_text_run :
    ∀ (ds buf tail : List Nat), ds ≠ [] → (∀ x ∈ ds, isIdentCont x = true) →
      contO isIdentCont tail.head? = false →
      scan Mode.Text buf (ds ++ tail) = Step.tok (Token.Text (buf ++ ds)) tail := by
  intro ds
  induction ds with
  | nil => intro buf tail h _ _; exact absurd rfl h
  | cons d ds ih =>
    intro buf tail _ hall hpk
    cases ds with
    | nil =>
      simp [scan, stepFn, emit_token_text, hpk]
    | cons d2 ds2 =>
      have hd2 : isIdentCont d2 = true := hall d2 (by simp)
      have h1 : scan Mode.Text buf ((d :: d2 :: ds2) ++ tail) =
          scan Mode.Text (buf ++ [d]) ((d2 :: ds2) ++ tail) := by
        simp [scan, stepFn, contO, hd2]
      rw [h1, ih (buf ++ [d]) tail (by simp) (fun x hx => hall x (by simp [hx]))
        hpk]
      simp

/-- Running `Mode::Number` over a maximal digit run appends it to the
buffer and then parses the buffer, emitting `Number` on success and
aborting on parse failure. -/
theorem scan_number_run :
    ∀ (ds buf tail : List Nat), ds ≠ [] → (∀ x ∈ ds, isDigit x = true) →
      contO isDigit tail.head? = false →
      scan Mode.Number buf (ds ++ tail) =
        match parseI32 (buf ++ ds) with
        | some v => Step.tok (Token.Number v) tail
        | none => Step.err "called `Result::unwrap()` on an `Err` value: ParseIntError" := by
  intro ds
  induction ds with
  | nil => intro buf tail h _ _; exact absurd rfl h
  | cons d ds ih =>
    intro buf tail _ hall hpk
    cases ds with
    | nil =>
      cases hp : parseI32 (buf ++ [d]) <;>
        simp [scan, stepFn, emit_token_number, hpk, hp]
    | cons d2 ds2 =>
      have hd2 : isDigit d2 = true := hall d2 (by simp)
      have h1 : scan Mode.Number buf ((d :: d2 :: ds2) ++ tail) =
          scan Mode.Number (buf ++ [d]) ((d2 :: ds2) ++ tail) := by
        simp [scan, stepFn, contO, hd2]
      rw [h1, ih (buf ++ [d]) tail (by simp) (fun x hx => hall x (by simp [hx]))
        hpk]
      simp

/-- C1: the claim says that after a CR, an LF returns the scanner to Idle
mode so that whitespace-only inputs tokenize to the empty sequence.  The
code instead leaves `mode` at `Mode::Newline` after consuming the LF, so
on the input `"\r\n\r\n"` — two well-formed CR/LF pairs — the second CR is
dispatched in `Newline` mode and aborts with "CR without corresponding LF
in input file", even though every CR in the input is followed by LF.  The
panic message contradicts the input, so this is a slip in the code (the
missing `mode = Mode::None` reset), not intended behavior. -/
theorem c1_crlf_pairs_abort :
    tokenize [13, 10, 13, 10] =
      .error "CR without corresponding LF in input file" := rfl

/-- C2: the end-to-end example: `(foo $ 42 , -3)` tokenizes to exactly
`[LParen, Text "foo", Dollar, Number 42, Comma, Number (-3), RParen]`,
after which the source is exhausted. -/
theorem c2_example_end_to_end :
    tokenize [40, 102, 111, 111, 32, 36, 32, 52, 50, 32, 44, 32, 45, 51, 41] =
      .ok [Token.LParen, Token.Text [102, 111, 111], Token.Dollar,
        Token.Number 42, Token.Comma, Token.Number (-3), Token.RParen] := rfl

/-- ASCII identifier start, the class `[A-Za-z_]` of the claim. -/
def asciiIdentStart (c : Nat) : Bool :=
  decide (c = 95) || decide (65 ≤ c ∧ c ≤ 90) || decide (97 ≤ c ∧ c ≤ 122)

/-- ASCII identifier continuation, the class `[A-Za-z0-9_]` of the claim. -/
def asciiIdentCont (c : Nat) : Bool :=
  asciiIdentStart c || isDigit c

theorem isLetter_of_asciiStart {c : Nat} (h : asciiIdentStart c = true) :
    isLetter c = true := by
  simp only [asciiIdentStart, Bool.or_eq_true, decide_eq_true_eq] at h
  simp only [isLetter, Bool.or_eq_true, decide_eq_true_eq]
  omega

theorem isIdentCont_of_asciiCont {c : Nat} (h : asciiIdentCont c = true) :
    isIdentCont c = true := by
  simp only [asciiIdentCont, asciiIdentStart, isDigit, Bool.or_eq_true,
    decide_eq_true_eq] at h
  simp only [isIdentCont, isDigit, Bool.or_eq_true, decide_eq_true_eq]
  omega

theorem ne13_of_isLetter {c : Nat} (h : isLetter c = true) : c ≠ 13 := by
  simp only [isLetter, Bool.or_eq_true, decide_eq_true_eq] at h
  omega

theorem isLetter_of_isDigit {c : Nat} (h : isDigit c = true) :
    isLetter c = false := by
  simp only [isDigit, decide_eq_true_eq] at h
  simp only [isLetter, Bool.or_eq_false_iff, decide_eq_false_iff_not]
  omega

theorem ne13_of_isDigit {c : Nat} (h : isDigit c = true) : c ≠ 13 := by
  simp only [isDigit, decide_eq_true_eq] at h
  omega

/-- C3: an input that is exactly one ASCII identifier produces exactly one
`Text` token carrying the identifier's bytes, then the source is
exhausted. -/
theorem c3_ascii_identifier (c : Nat) (cs : List Nat)
    (hc : asciiIdentStart c = true) (hcs : ∀ x ∈ cs, asciiIdentCont x = true) :
    tokenize (c :: cs) = .ok [Token.Text (c :: cs)] := by
  have hL : isLetter c = true := isLetter_of_asciiStart hc
  have h13 : c ≠ 13 := ne13_of_isLetter hL
  rw [tokenize_eq]
  cases cs with
  | nil =>
    have hstep : nextTok [c] = Step.tok (Token.Text [c]) [] := by
      simp [nextTok, scan, stepFn, h13, hL, contO, emit_token_text]
    rw [hstep]
    rfl
  | cons p cs2 =>
    have hp : isIdentCont p = true := isIdentCont_of_asciiCont (hcs p (by simp))
    have hstep : nextTok (c :: p :: cs2) = Step.tok (Token.Text (c :: p :: cs2)) [] := by
      have h1 : nextTok (c :: p :: cs2) = scan Mode.Text [c] (p :: cs2) := by
        simp [nextTok, scan, stepFn, h13, hL, contO, hp]
      rw [h1]
      have h2 := scan_text_run (p :: cs2) [c] [] (by simp)
        (fun x hx => isIdentCont_of_asciiCont (hcs x hx)) (by simp [contO])
      simpa using h2
    rw [hstep]
    rfl

/-- Closed witness for C3 at the identifier `foo`. -/
theorem c3_ascii_identifier_witness :
    tokenize [102, 111, 111] = .ok [Token.Text [102, 111, 111]] :=
  c3_ascii_identifier 102 [111, 111] (by decide) (by decide)

theorem parseCore_pos (ds : List Nat) (hne : ds ≠ [])
    (hd : ∀ x ∈ ds, isDigit x = true) (hhi : (digitsVal ds : Int) ≤ 2 ^ 31 - 1) :
    parseCore ds false = some ((digitsVal ds : Int)) := by
  have hall : allDigits ds = true := by
    simp only [allDigits, List.all_eq_true]
    exact hd
  norm_num at hhi
  simp [parseCore, hne, hall]
  omega

theorem parseCore_neg (ds : List Nat) (hne : ds ≠ [])
    (hd : ∀ x ∈ ds, isDigit x = true) (hhi : (digitsVal ds : Int) ≤ 2 ^ 31) :
    parseCore ds true = some (-(digitsVal ds : Int)) := by
  have hall : allDigits ds = true := by
    simp only [allDigits, List.all_eq_true]
    exact hd
  norm_num at hhi
  simp [parseCore, hne, hall]
  omega

theorem parseI32_digits (ds : List Nat) (hne : ds ≠ [])
    (hd : ∀ x ∈ ds, isDigit x = true) (hhi : (digitsVal ds : Int) ≤ 2 ^ 31 - 1) :
    parseI32 ds = some ((digitsVal ds : Int)) := by
  cases ds with
  | nil => exact absurd rfl hne
  | cons c rest =>
    have hc : isDigit c = true := hd c (by simp)
    simp only [isDigit, decide_eq_true_eq] at hc
    have h45 : c ≠ 45 := by omega
    have h43 : c ≠ 43 := by omega
    simp only [parseI32, h45, h43, if_false]
    exact parseCore_pos (c :: rest) hne hd hhi

theorem parseI32_minus (ds : List Nat) (hne : ds ≠ [])
    (hd : ∀ x ∈ ds, isDigit x = true) (hhi : (digitsVal ds : Int) ≤ 2 ^ 31) :
    parseI32 (45 :: ds) = some (-(digitsVal ds : Int)) := by
  have h := parseCore_neg ds hne hd hhi
  simp [parseI32, h]

/-- The byte sequence of a signed decimal literal: an optional leading
`-` followed by the digit bytes. -/
def numLit (neg : Bool) (ds : List Nat) : List Nat :=
  if neg then 45 :: ds else ds

/-- The mathematical value of a signed decimal literal. -/
def numVal (neg : Bool) (ds : List Nat) : Int :=
  if neg then -(digitsVal ds : Int) else (digitsVal ds : Int)

/-- C4: an input that is exactly a nonempty digit run, optionally prefixed
by a single `-`, whose value fits in a signed 32-bit integer, produces
exactly one `Number` token carrying the parsed value (leading zeros
included), then the source is exhausted. -/
theorem c4_number_literal (neg : Bool) (ds : List Nat) (hne : ds ≠ [])
    (hd : ∀ x ∈ ds, isDigit x = true)
    (hlo : -(2 ^ 31) ≤ numVal neg ds) (hhi : numVal neg ds ≤ 2 ^ 31 - 1) :
    tokenize (numLit neg ds) = .ok [Token.Number (numVal neg ds)] := by
  cases neg with
  | false =>
    simp only [numLit, numVal, Bool.false_eq_true, if_false] at *
    have hp : parseI32 ds = some ((digitsVal ds : Int)) := parseI32_digits ds hne hd hhi
    cases ds with
    | nil => exact absurd rfl hne
    | cons d rest =>
      have hd1 : isDigit d = true := hd d (by simp)
      have h13 : d ≠ 13 := ne13_of_isDigit hd1
      have hL : isLetter d = false := isLetter_of_isDigit hd1
      rw [tokenize_eq]
      cases rest with
      | nil =>
        have hstep : nextTok [d] = Step.tok (Token.Number ((digitsVal [d] : Int))) [] := by
          simp [nextTok, scan, stepFn, h13, hL, hd1, contO, emit_token_number, hp]
        rw [hstep]
        rfl
      | cons d2 rest2 =>
        have hd2 : isDigit d2 = true := hd d2 (by simp)
        have hstep : nextTok (d :: d2 :: rest2) =
            Step.tok (Token.Number ((digitsVal (d :: d2 :: rest2) : Int))) [] := by
          have h1 : nextTok (d :: d2 :: rest2) = scan Mode.Number [d] (d2 :: rest2) := by
            simp [nextTok, scan, stepFn, h13, hL, hd1, contO, hd2]
          rw [h1]
          have h2 := scan_number_run (d2 :: rest2) [d] [] (by simp)
            (fun x hx => hd x (by simp [hx])) (by simp [contO])
          simp only [List.append_nil, List.singleton_append] at h2
          rw [h2, hp]
        rw [hstep]
        rfl
  | true =>
    simp only [numLit, numVal, if_true] at *
    have hhi2 : (digitsVal ds : Int) ≤ 2 ^ 31 := by omega
    have hp : parseI32 (45 :: ds) = some (-(digitsVal ds : Int)) :=
      parseI32_minus ds hne hd hhi2
    cases ds with
    | nil => exact absurd rfl hne
    | cons d rest =>
      have hd1 : isDigit d = true := hd d (by simp)
      rw [tokenize_eq]
      have hstep : nextTok (45 :: d :: rest) =
          Step.tok (Token.Number (-(digitsVal (d :: rest) : Int))) [] := by
        have hpk : contO isDigit (some d) = true := by simp [contO, hd1]
        have e1 : ((45 : Nat) = 13) = False := by decide
        have e2 : isLetter 45 = false := by decide
        have e3 : isDigit 45 = false := by decide
        have h1 : nextTok (45 :: d :: rest) = scan Mode.Number [45] (d :: rest) := by
          simp [nextTok, scan, stepFn, e1, e2, e3, hpk]
        rw [h1]
        have h2 := scan_number_run (d :: rest) [45] [] (by simp)
          (fun x hx => hd x hx) (by simp [contO])
        simp only [List.append_nil, List.singleton_append] at h2
        rw [h2, hp]
      rw [hstep]
      rfl

/-- Closed witness for C4 at the literal `-123`. -/
theorem c4_number_literal_witness :
    tokenize [45, 49, 50, 51] = .ok [Token.Number (-123)] := by
  have h := c4_number_literal true [49, 50, 51] (by decide) (by decide)
    (by decide) (by decide)
  simpa [numLit, numVal, digitsVal] using h

theorem parseCore_pos_none (ds : List Nat)
    (hhi : (2 ^ 31 - 1 : Int) < (digitsVal ds : Int)) :
    parseCore ds false = none := by
  norm_num at hhi
  by_cases h1 : ds = []
  · simp [parseCore, h1]
  · by_cases h2 : allDigits ds = true
    · have hc : ¬(-(2 ^ 31 : Int) ≤ (digitsVal ds : Int) ∧
          (digitsVal ds : Int) ≤ 2 ^ 31 - 1) := by
        intro hcon
        norm_num at hcon
        omega
      simp [parseCore, h1, h2, hc]
      omega
    · simp [parseCore, h1, h2]

theorem parseCore_neg_none (ds : List Nat)
    (hhi : (2 ^ 31 : Int) < (digitsVal ds : Int)) :
    parseCore ds true = none := by
  norm_num at hhi
  by_cases h1 : ds = []
  · simp [parseCore, h1]
  · by_cases h2 : allDigits ds = true
    · have hc : ¬(-(2 ^ 31 : Int) ≤ -(digitsVal ds : Int) ∧
          -(digitsVal ds : Int) ≤ 2 ^ 31 - 1) := by
        intro hcon
        norm_num at hcon
        omega
      simp [parseCore, h1, h2, hc]
      omega
    · simp [parseCore, h1, h2]

theorem parseI32_digits_none (ds : List Nat) (hd : ∀ x ∈ ds, isDigit x = true)
    (hhi : (2 ^ 31 - 1 : Int) < (digitsVal ds : Int)) :
    parseI32 ds = none := by
  cases ds with
  | nil => rfl
  | cons c rest =>
    have hc : isDigit c = true := hd c (by simp)
    simp only [isDigit, decide_eq_true_eq] at hc
    have h45 : c ≠ 45 := by omega
    have h43 : c ≠ 43 := by omega
    simp only [parseI32, h45, h43, if_false]
    exact parseCore_pos_none (c :: rest) hhi

theorem parseI32_minus_none (ds : List Nat)
    (hhi : (2 ^ 31 : Int) < (digitsVal ds : Int)) :
    parseI32 (45 :: ds) = none := by
  have h := parseCore_neg_none ds hhi
  simp [parseI32, h]

/-- C7: when the scanner finishes accumulating a maximal digit run (with
optional leading `-`) whose value does not fit a signed 32-bit integer,
the whole scan aborts (the `unwrap` of the failed parse) instead of
emitting a `Number` token, whatever follows the run. -/
theorem c7_numeric_overflow (neg : Bool) (ds tail : List Nat) (hne : ds ≠ [])
    (hd : ∀ x ∈ ds, isDigit x = true)
    (hout : ¬(-(2 ^ 31) ≤ numVal neg ds ∧ numVal neg ds ≤ 2 ^ 31 - 1))
    (htail : contO isDigit tail.head? = false) :
    tokenize (numLit neg ds ++ tail) =
      .error "called `Result::unwrap()` on an `Err` value: ParseIntError" := by
  cases neg with
  | false =>
    simp only [numLit, numVal, Bool.false_eq_true, if_false] at *
    have hbig : (2 ^ 31 - 1 : Int) < (digitsVal ds : Int) := by
      have : (0 : Int) ≤ (digitsVal ds : Int) := Int.natCast_nonneg _
      omega
    have hp : parseI32 ds = none := parseI32_digits_none ds hd hbig
    cases ds with
    | nil => exact absurd rfl hne
    | cons d rest =>
      have hd1 : isDigit d = true := hd d (by simp)
      have h13 : d ≠ 13 := ne13_of_isDigit hd1
      have hL : isLetter d = false := isLetter_of_isDigit hd1
      cases rest with
      | nil =>
        exfalso
        have : digitsVal [d] = d - 48 := by simp [digitsVal]
        simp only [isDigit, decide_eq_true_eq] at hd1
        rw [this] at hbig
        norm_num at hbig
        omega
      | cons d2 rest2 =>
        have hd2 : isDigit d2 = true := hd d2 (by simp)
        rw [tokenize_eq]
        have hstep : nextTok ((d :: d2 :: rest2) ++ tail) =
            Step.err "called `Result::unwrap()` on an `Err` value: ParseIntError" := by
          have hpk : contO isDigit (some d2) = true := by simp [contO, hd2]
          have h1 : nextTok ((d :: d2 :: rest2) ++ tail) =
              scan Mode.Number [d] ((d2 :: rest2) ++ tail) := by
            simp [nextTok, scan, stepFn, h13, hL, hd1, hpk]
          rw [h1]
          have h2 := scan_number_run (d2 :: rest2) [d] tail (by simp)
            (fun x hx => hd x (by simp [hx])) htail
          simp only [List.singleton_append] at h2
          rw [h2, hp]
        rw [hstep]
  | true =>
    simp only [numLit, numVal, if_true] at *
    have hbig : (2 ^ 31 : Int) < (digitsVal ds : Int) := by omega
    have hp : parseI32 (45 :: ds) = none := parseI32_minus_none ds hbig
    cases ds with
    | nil => exact absurd rfl hne
    | cons d rest =>
      have hd1 : isDigit d = true := hd d (by simp)
      rw [tokenize_eq]
      have hstep : nextTok ((45 :: d :: rest) ++ tail) =
          Step.err "called `Result::unwrap()` on an `Err` value: ParseIntError" := by
        have hpk : contO isDigit (some d) = true := by simp [contO, hd1]
        have e1 : ((45 : Nat) = 13) = False := by decide
        have e2 : isLetter 45 = false := by decide
        have e3 : isDigit 45 = false := by decide
        have h1 : nextTok ((45 :: d :: rest) ++ tail) =
            scan Mode.Number [45] ((d :: rest) ++ tail) := by
          simp [nextTok, scan, stepFn, e1, e2, e3, hpk]
        rw [h1]
        have h2 := scan_number_run (d :: rest) [45] tail (by simp)
          (fun x hx => hd x hx) htail
        simp only [List.singleton_append] at h2
        rw [h2, hp]
      rw [hstep]

/-- Closed witness for C7: `2147483648` is one past the largest `i32`. -/
theorem c7_numeric_overflow_witness :
    tokenize [50, 49, 52, 55, 52, 56, 51, 54, 52, 56] =
      .error "called `Result::unwrap()` on an `Err` value: ParseIntError" := by
  have h := c7_numeric_overflow false [50, 49, 52, 55, 52, 56, 51, 54, 52, 56] []
    (by decide) (by decide) (by decide) (by decide)
  simpa [numLit] using h

/-- Well-formed `Text` payload: nonempty, starting with a letter-class
byte, every later byte in the continuation class. -/
def TextWF (bl : List Nat) : Prop :=
  ∃ c cs, bl = c :: cs ∧ isLetter c = true ∧ ∀ x ∈ cs, isIdentCont x = true

theorem TextWF_single (b : Nat) (h : isLetter b = true) : TextWF [b] :=
  ⟨b, [], rfl, h, by simp⟩

theorem TextWF_append (buf : List Nat) (b : Nat) (h : TextWF buf)
    (hb : isIdentCont b = true) : TextWF (buf ++ [b]) := by
  obtain ⟨c, cs, rfl, hc, hcs⟩ := h
  refine ⟨c, cs ++ [b], by simp, hc, ?_⟩
  intro x hx
  rcases List.mem_append.mp hx with hx1 | hx2
  · exact hcs x hx1
  · simp at hx2
    subst hx2
    exact hb

theorem contO_true (f : Nat → Bool) (o : Option Nat) (h : contO f o = true) :
    ∀ x, o = some x → f x = true := by
  intro x hx
  subst hx
  simpa [contO] using h

set_option maxHeartbeats 1600000 in
/-- A `ret` of a `Text` token arises only from the single-letter emit in
`Mode::None` or from the `Mode::Text` arm flushing its buffer. -/
theorem stepFn_ret_text_shape (m : Mode) (buf : List Nat) (b : Nat)
    (pk : Option Nat) (bl : List Nat)
    (h : stepFn m buf b pk = LoopAction.ret (Token.Text bl)) :
    (isLetter b = true ∧ bl = [b]) ∨ (m = Mode.Text ∧ bl = buf ++ [b]) := by
  cases m with
  | None =>
    simp only [stepFn, emit_token_text] at h
    split_ifs at h
    all_goals try (simp only [emit_token_number] at h)
    all_goals try (split at h)
    all_goals try (cases h; done)
    all_goals (cases h; exact Or.inl ⟨by assumption, rfl⟩)
  | Newline =>
    simp only [stepFn] at h
    split_ifs at h <;> cases h
  | Text =>
    simp only [stepFn, emit_token_text] at h
    split_ifs at h
    all_goals try (cases h; done)
    all_goals (cases h; exact Or.inr ⟨rfl, rfl⟩)
  | Number =>
    simp only [stepFn, emit_token_number] at h
    split_ifs at h <;> try (split at h)
    all_goals cases h

set_option maxHeartbeats 1600000 in
/-- A `go` into `Mode::Text` happens only with a continuing lookahead,
from the `Mode::None` letter case (buffer `[b]`) or from `Mode::Text`
itself (buffer extended by `b`). -/
theorem stepFn_go_text_shape (m : Mode) (buf : List Nat) (b : Nat)
    (pk : Option Nat) (m2 : Mode) (buf2 : List Nat)
    (h : stepFn m buf b pk = LoopAction.go m2 buf2) (hm2 : m2 = Mode.Text) :
    contO isIdentCont pk = true ∧
      ((isLetter b = true ∧ buf2 = [b]) ∨ (m = Mode.Text ∧ buf2 = buf ++ [b])) := by
  subst hm2
  cases m with
  | None =>
    simp only [stepFn, emit_token_text] at h
    split_ifs at h
    all_goals try (simp only [emit_token_number] at h)
    all_goals try (split at h)
    all_goals try (cases h; done)
    all_goals (cases h; exact ⟨by assumption, Or.inl ⟨by assumption, rfl⟩⟩)
  | Newline =>
    simp only [stepFn] at h
    split_ifs at h <;> cases h
  | Text =>
    simp only [stepFn, emit_token_text] at h
    split_ifs at h
    all_goals try (cases h; done)
    all_goals (cases h; exact ⟨by assumption, Or.inr ⟨rfl, rfl⟩⟩)
  | Number =>
    simp only [stepFn, emit_token_number] at h
    split_ifs at h <;> try (split at h)
    all_goals cases h

/-- Invariant: every `Text` token a `next()` call returns is well-formed,
provided that when entering mid-`Text` the buffer is well-formed and the
byte about to be consumed continues an identifier. -/
theorem scan_text_wf :
    ∀ (l : List Nat) (m : Mode) (buf : List Nat) (t : Token) (r : List Nat),
      scan m buf l = Step.tok t r →
      (m = Mode.Text →
        TextWF buf ∧ ∀ b2, l.head? = some b2 → isIdentCont b2 = true) →
      ∀ bl, t = Token.Text bl → TextWF bl := by
  intro l
  induction l with
  | nil =>
    intro m buf t r h _ bl _
    simp [scan] at h
  | cons b rest ih =>
    intro m buf t r h hpre bl ht
    subst ht
    simp only [scan] at h
    cases ha : stepFn m buf b rest.head? with
    | ret t0 =>
      rw [ha] at h
      cases h
      rcases stepFn_ret_text_shape m buf b rest.head? bl ha with hl | hr
      · rcases hl with ⟨hL, rfl⟩
        exact TextWF_single b hL
      · rcases hr with ⟨hm, rfl⟩
        obtain ⟨hwf, hhead⟩ := hpre hm
        exact TextWF_append buf b hwf (hhead b rfl)
    | die msg =>
      rw [ha] at h
      cases h
    | go m2 buf2 =>
      rw [ha] at h
      refine ih m2 buf2 _ r h ?_ bl rfl
      intro hm2
      obtain ⟨hcont, hsh⟩ := stepFn_go_text_shape m buf b rest.head? m2 buf2 ha hm2
      refine ⟨?_, fun b2 hb2 => contO_true isIdentCont rest.head? hcont b2 hb2⟩
      rcases hsh with ⟨hL, rfl⟩ | ⟨hm, rfl⟩
      · exact TextWF_single b hL
      · obtain ⟨hwf, hhead⟩ := hpre hm
        exact TextWF_append buf b hwf (hhead b rfl)

/-- Lifting the `Text` well-formedness invariant through a whole run. -/
theorem tokenizeF_text_wf :
    ∀ (fuel : Nat) (l : List Nat) (ts : List Token),
      tokenizeF fuel l = .ok ts → ∀ bl, Token.Text bl ∈ ts → TextWF bl := by
  intro fuel
  induction fuel with
  | zero =>
    intro l ts h bl hmem
    cases h
    simp at hmem
  | succ fuel ih =>
    intro l ts h bl hmem
    simp only [tokenizeF] at h
    cases hs : nextTok l with
    | eof =>
      rw [hs] at h
      cases h
      simp at hmem
    | err msg =>
      rw [hs] at h
      cases h
    | tok t r =>
      rw [hs] at h
      dsimp only at h
      cases hrec : tokenizeF fuel r with
      | error msg => rw [hrec] at h; cases h
      | ok ts2 =>
        rw [hrec] at h
        cases h
        rcases List.mem_cons.mp hmem with hhd | htl
        · exact scan_text_wf l Mode.None [] t r hs (by simp) bl hhd.symm
        · exact ih r ts2 hrec bl htl

/-- C10: every `Text` token emitted for any input carries a non-empty
byte sequence whose first byte is in the identifier-start class
(underscore, ASCII letters, or the extended ranges — never a digit) and
whose subsequent bytes are in that class or digits. -/
theorem c10_text_token_invariant (l : List Nat) (ts : List Token) (bl : List Nat)
    (h : tokenize l = .ok ts) (hmem : Token.Text bl ∈ ts) :
    ∃ c cs, bl = c :: cs ∧ isLetter c = true ∧ ∀ x ∈ cs, isIdentCont x = true :=
  tokenizeF_text_wf (l.length + 1) l ts h bl hmem

/-- Closed witness for C10 on the input `a1`. -/
theorem c10_text_token_invariant_witness :
    ∃ c cs, ([97, 49] : List Nat) = c :: cs ∧ isLetter c = true ∧
      ∀ x ∈ cs, isIdentCont x = true :=
  c10_text_token_invariant [97, 49] [Token.Text [97, 49]] [97, 49] rfl (by simp)

/-- C6: consuming `-` in Idle mode with a missing or non-digit lookahead
aborts the scan with the dangling-minus diagnostic, and no successful
tokenization ever contains a `Text` token holding just the `-` byte (and
there is no minus punctuation variant in `Token` at all). -/
theorem c6_minus_requires_digit :
    (∀ (buf rest : List Nat), contO isDigit rest.head? = false →
      scan Mode.None buf (45 :: rest) = Step.err "Minus encountered without number") ∧
    (∀ (l : List Nat) (ts : List Token), tokenize l = .ok ts →
      Token.Text [45] ∉ ts) := by
  constructor
  · intro buf rest hpk
    have e1 : ((45 : Nat) = 13) = False := by decide
    have e2 : isLetter 45 = false := by decide
    have e3 : isDigit 45 = false := by decide
    simp [scan, stepFn, e1, e2, e3, hpk]
  · intro l ts h hmem
    obtain ⟨c, cs, hbl, hc, _⟩ :=
      tokenizeF_text_wf (l.length + 1) l ts h [45] hmem
    cases hbl
    simp [isLetter] at hc

/-- Closed witness for C6: lone `-` aborts, and `()` holds no minus text. -/
theorem c6_minus_requires_digit_witness :
    scan Mode.None [] [45] = Step.err "Minus encountered without number" ∧
      Token.Text [45] ∉ [Token.LParen, Token.RParen] :=
  ⟨c6_minus_requires_digit.1 [] [] (by decide),
   c6_minus_requires_digit.2 [40, 41] [Token.LParen, Token.RParen] rfl⟩

set_option maxHeartbeats 1600000 in
/-- No arm of the loop body ever returns the `EOL` token variant. -/
theorem stepFn_ret_no_eol (m : Mode) (buf : List Nat) (b : Nat)
    (pk : Option Nat) (t : Token) (h : stepFn m buf b pk = LoopAction.ret t) :
    t ≠ Token.EOL := by
  cases m with
  | None =>
    simp only [stepFn, emit_token_text] at h
    split_ifs at h
    all_goals try (simp only [emit_token_number] at h)
    all_goals try (split at h)
    all_goals try (cases h; done)
    all_goals (cases h; simp)
  | Newline =>
    simp only [stepFn] at h
    split_ifs at h <;> cases h
  | Text =>
    simp only [stepFn, emit_token_text] at h
    split_ifs at h
    all_goals try (cases h; done)
    all_goals (cases h; simp)
  | Number =>
    simp only [stepFn, emit_token_number] at h
    split_ifs at h <;> try (split at h)
    all_goals try (cases h; done)
    all_goals (cases h; simp)

/-- A `next()` call never yields the `EOL` token. -/
theorem scan_no_eol :
    ∀ (l : List Nat) (m : Mode) (buf : List Nat) (t : Token) (r : List Nat),
      scan m buf l = Step.tok t r → t ≠ Token.EOL := by
  intro l
  induction l with
  | nil =>
    intro m buf t r h
    simp [scan] at h
  | cons b rest ih =>
    intro m buf t r h
    simp only [scan] at h
    cases ha : stepFn m buf b rest.head? with
    | ret t0 =>
      rw [ha] at h
      cases h
      exact stepFn_ret_no_eol m buf b rest.head? t ha
    | die msg =>
      rw [ha] at h
      cases h
    | go m2 buf2 =>
      rw [ha] at h
      exact ih m2 buf2 t r h

theorem tokenizeF_no_eol :
    ∀ (fuel : Nat) (l : List Nat) (ts : List Token),
      tokenizeF fuel l = .ok ts → Token.EOL ∉ ts := by
  intro fuel
  induction fuel with
  | zero =>
    intro l ts h hmem
    cases h
    simp at hmem
  | succ fuel ih =>
    intro l ts h hmem
    simp only [tokenizeF] at h
    cases hs : nextTok l with
    | eof =>
      rw [hs] at h
      cases h
      simp at hmem
    | err msg =>
      rw [hs] at h
      cases h
    | tok t r =>
      rw [hs] at h
      dsimp only at h
      cases hrec : tokenizeF fuel r with
      | error msg => rw [hrec] at h; cases h
      | ok ts2 =>
        rw [hrec] at h
        cases h
        rcases List.mem_cons.mp hmem with hhd | htl
        · exact scan_no_eol l Mode.None [] t r hs hhd.symm
        · exact ih r ts2 hrec htl

/-- C8: for every input byte sequence the scanner never returns the
`EOL` token variant — CR/LF sequences produce no token at all. -/
theorem c8_never_eol (l : List Nat) (ts : List Token)
    (h : tokenize l = .ok ts) : Token.EOL ∉ ts :=
  tokenizeF_no_eol (l.length + 1) l ts h

/-- Closed witness for C8 on the input `()` preceded by a CRLF pair. -/
theorem c8_never_eol_witness :
    Token.EOL ∉ [Token.LParen, Token.RParen] :=
  c8_never_eol [40, 41] [Token.LParen, Token.RParen] rfl

/-- On a source that never fails, the fallible driver agrees with the
plain one: `scanE` is the faithful embedding and `scan` its error-free
specialisation. -/
theorem scanE_map_some :
    ∀ (l : List Nat) (m : Mode) (buf : List Nat),
      scanE m buf (l.map some) = liftE (scan m buf l) := by
  intro l
  induction l with
  | nil => intro m buf; rfl
  | cons b rest ih =>
    intro m buf
    have hpk : peekedE (rest.map some) = rest.head? := by
      cases rest <;> rfl
    simp only [List.map_cons, scanE, scan, hpk]
    cases stepFn m buf b rest.head? with
    | ret t => rfl
    | die msg => rfl
    | go m2 buf2 => exact ih m2 buf2

/-- C9: when the underlying byte source reports a read failure at the
position of the next byte to consume, the `next()` loop terminates with
the no-more-tokens signal exactly as on clean end-of-input — whatever the
current mode and buffer — and never surfaces a distinct error. -/
theorem c9_read_failure_is_exhaustion (m : Mode) (buf : List Nat)
    (rest : List (Option Nat)) :
    scanE m buf (Option.none :: rest) = StepE.eof ∧ scanE m buf [] = StepE.eof :=
  ⟨rfl, rfl⟩

set_option maxHeartbeats 1600000 in
/-- If an iteration returns a token while a peeked byte was available, it
returns the same token when the peek is empty: every emission path treats
a non-continuing peeked byte and an absent peek alike. -/
theorem stepFn_ret_of_some (m : Mode) (buf : List Nat) (b : Nat) (p : Nat)
    (t : Token) (h : stepFn m buf b (some p) = LoopAction.ret t) :
    stepFn m buf b none = LoopAction.ret t := by
  cases m with
  | None =>
    simp only [stepFn, contO, Bool.false_eq_true, if_false] at h ⊢
    split_ifs at h ⊢
    all_goals first | exact h | cases h
  | Newline =>
    simp only [stepFn] at h ⊢
    exact h
  | Text =>
    simp only [stepFn, contO, Bool.false_eq_true, if_false] at h ⊢
    split_ifs at h
    all_goals try (cases h; done)
    all_goals exact h
  | Number =>
    simp only [stepFn, contO, Bool.false_eq_true, if_false] at h ⊢
    split_ifs at h
    all_goals try (cases h; done)
    all_goals exact h

/-- Frame property of a single `next()` call: if, run on `a ++ B`, it
returns a token leaving `a2 ++ B`, then run on `a` alone it returns the
same token leaving `a2`.  The call never needs to look past the boundary
except for the final peek, and a non-continuing peek acts like none. -/
theorem scan_frame :
    ∀ (a B : List Nat) (m : Mode) (buf : List Nat) (t : Token) (a2 : List Nat),
      scan m buf (a ++ B) = Step.tok t (a2 ++ B) → scan m buf a = Step.tok t a2 := by
  intro a
  induction a with
  | nil =>
    intro B m buf t a2 h
    have hlen := scan_tok_length B m buf t (a2 ++ B) (by simpa using h)
    rw [List.length_append] at hlen
    omega
  | cons c a1 ih =>
    intro B m buf t a2 h
    simp only [List.cons_append, scan] at h
    simp only [scan]
    cases a1 with
    | nil =>
      simp only [List.append_eq, List.nil_append] at h
      simp only [List.head?_nil]
      cases ha : stepFn m buf c B.head? with
      | ret t0 =>
        rw [ha] at h
        injection h with h1 h2
        have ha2 : a2 = [] := by
          have hl := congrArg List.length h2
          rw [List.length_append] at hl
          cases a2 with
          | nil => rfl
          | cons x xs => simp at hl
        subst ha2
        subst h1
        have hnone : stepFn m buf c none = LoopAction.ret t0 := by
          cases hB : B.head? with
          | none => rw [hB] at ha; exact ha
          | some p => rw [hB] at ha; exact stepFn_ret_of_some m buf c p t0 ha
        rw [hnone]
      | die msg =>
        rw [ha] at h
        cases h
      | go m2 buf2 =>
        rw [ha] at h
        have hlen := scan_tok_length B m2 buf2 t (a2 ++ B) h
        rw [List.length_append] at hlen
        omega
    | cons c2 a1' =>
      simp only [List.append_eq, List.cons_append, List.head?_cons] at h ⊢
      cases ha : stepFn m buf c (some c2) with
      | ret t0 =>
        rw [ha] at h
        injection h with h1 h2
        have hc : c2 :: a1' = a2 := by
          apply List.append_cancel_right
          simpa using h2
        subst h1
        rw [← hc]
      | die msg =>
        rw [ha] at h
        cases h
      | go m2 buf2 =>
        rw [ha] at h
        exact ih B m2 buf2 t a2 h

/-- Chains of successful `next()` calls: `TokSteps l ts r` says that
starting from the bytes `l`, some number of consecutive calls produce the
tokens `ts` and leave the bytes `r`. -/
inductive TokSteps : List Nat → List Token → List Nat → Prop
  | refl (l : List Nat) : TokSteps l [] l
  | step {l : List Nat} {t : Token} {r : List Nat} {ts : List Token} {r2 : List Nat}
      (h : nextTok l = Step.tok t r) (hs : TokSteps r ts r2) : TokSteps l (t :: ts) r2

theorem toksteps_suffix (l : List Nat) (ts : List Token) (r : List Nat)
    (h : TokSteps l ts r) : r <:+ l := by
  induction h with
  | refl l0 => exact List.suffix_refl l0
  | step hn _ ih => exact ih.trans (scan_tok_suffix _ _ _ _ _ hn)

theorem toksteps_tokenize (l : List Nat) (ts : List Token) (r : List Nat)
    (h : TokSteps l ts r) :
    tokenize l = (tokenize r).map (fun ts2 => ts ++ ts2) := by
  induction h with
  | refl l0 =>
    cases h0 : tokenize l0 <;> simp [h0, Except.map]
  | step hn _ ih =>
    rw [tokenize_eq, hn]
    dsimp only
    rw [ih]
    cases tokenize _ <;> simp [Except.map]

theorem toksteps_front (l : List Nat) (ts : List Token) (r : List Nat)
    (h : TokSteps l ts r) : ∀ A, l = A ++ r → tokenize A = .ok ts := by
  induction h with
  | refl l0 =>
    intro A hA
    have hA0 : A = [] := by
      have hl := congrArg List.length hA
      rw [List.length_append] at hl
      cases A with
      | nil => rfl
      | cons x xs => simp at hl
    subst hA0
    rfl
  | step hn hs ih =>
    intro A hA
    obtain ⟨u, hu⟩ := toksteps_suffix _ _ _ hs
    subst hA
    rw [← hu] at hn
    have hframe : nextTok A = Step.tok _ u := scan_frame A _ Mode.None [] _ u hn
    rw [tokenize_eq, hframe]
    dsimp only
    rw [ih u hu.symm]
    rfl

/-- C5: tokenization has no hidden cross-call state beyond the cursor.
If the run on `A ++ B` reaches the boundary exactly (`TokSteps (A ++ B)
ts B`, i.e. `A` tokenizes without error and ends at a token boundary),
then `A` alone tokenizes to `ts`, and tokenizing `A ++ B` is `ts`
followed by whatever `B` tokenizes to. -/
theorem c5_concatenation (A B : List Nat) (ts : List Token)
    (h : TokSteps (A ++ B) ts B) :
    tokenize A = .ok ts ∧
      tokenize (A ++ B) = (tokenize B).map (fun ts2 => ts ++ ts2) :=
  ⟨toksteps_front (A ++ B) ts B h A rfl, toksteps_tokenize (A ++ B) ts B h⟩

/-- Closed witness for C5 with `A = "("` and `B = ")"`. -/
theorem c5_concatenation_witness :
    tokenize [40] = .ok [Token.LParen] ∧
      tokenize [40, 41] = (tokenize [41]).map (fun ts2 => [Token.LParen] ++ ts2) :=
  c5_concatenation [40] [41] [Token.LParen]
    (TokSteps.step rfl (TokSteps.refl [41]))
